import Mathlib

/-!
Shallow embedding of the rjson lexer and recursive-descent parser
(src/main.rs) together with proofs about its documented behaviour.

The buffer is modelled as a `List Char` (the source scans the buffer byte by
byte; every input of interest is ASCII, where byte = character).  Rust panics
(out-of-bounds indexing, the lexer's explicit panic on an unknown byte) are
modelled as a distinguished `panic` outcome.  The loops and the mutual
recursion of the parser are driven by an explicit fuel argument; `outOfFuel`
is an artefact of the embedding that the top-level wrappers never produce for
the generous fuel they supply.
-/

/-- Token type, mirroring `enum JsonTokens` in src/main.rs (lines 7-21).
`identifier` and `string` carry the lexeme text and its recorded length. -/
inductive JsonTokens where
  | openCurlyBrace
  | closingCurlyBrace
  | openSquareBrace
  | closingSquareBrace
  | colon
  | comma
  | identifier (text : List Char) (length : Nat)
  | string (text : List Char) (length : Nat)
  | boolean (b : Bool)
  | null
  | eof
deriving DecidableEq, Repr

/-- Error type, mirroring `enum ParserError` in src/main.rs (lines 113-121). -/
inductive ParserError where
  | invalidSymbolInCurrentContext
  | invalidKey
  | missingSymbol
  | invalidValueInCurrentContext
  | emptyJson
  | invalidValue
deriving DecidableEq, Repr

/-- Result of the lexer: `ok` is the `Ok(tokens)` return of `scan_json`;
`panic` models the `panic!` on an unknown byte and the out-of-range slice
in `scan_string`; `outOfFuel` is an embedding artefact (never produced by
the wrapper `scan_json`, which supplies more fuel than the buffer length). -/
inductive LexResult where
  | outOfFuel
  | panic
  | ok (tokens : List JsonTokens)
deriving DecidableEq, Repr

/-- Result of a parser rule: `ok rest` is `Ok(())` together with the suffix
of the token stream that follows the parser position on return; `error e` is
`Err(e)`; `panic` models out-of-bounds indexing in `advance`/`peek`/
`match_token`; `outOfFuel` is an embedding artefact. -/
inductive PResult where
  | ok (rest : List JsonTokens)
  | error (e : ParserError)
  | panic
  | outOfFuel
deriving DecidableEq, Repr

/-- Mirrors `u8::is_ascii_whitespace` for the bytes the source skips
(src/main.rs line 70): space, tab, line feed, form feed, carriage return. -/
def isAsciiWhitespace (c : Char) : Bool :=
  c = ' ' || c = '\t' || c = '\n' || c = '\x0c' || c = '\r'

/-- The identifier byte class `b'_' | b'a'..=b'z' | b'A'..=b'Z'` used at
src/main.rs lines 45 and 88. -/
def isIdentChar (c : Char) : Bool :=
  c = '_' || ('a' ≤ c && c ≤ 'z') || ('A' ≤ c && c ≤ 'Z')

/-- A byte at which the scanner's dispatch (src/main.rs lines 70-99) finds
some rule: whitespace, a structural character, a quote, or an identifier
start.  Any other byte falls into the `unknown => panic!` arm. -/
def isKnownStart (c : Char) : Bool :=
  isAsciiWhitespace c || c = '{' || c = '}' || c = '[' || c = ']' ||
    c = ':' || c = ',' || c = '"' || isIdentChar c

/-- Embeds `scan_string` (src/main.rs lines 23-38), specialised to its only
call pattern `scan_string(&content[current + 1..], 0)`: `content` here is the
buffer suffix that starts right after the opening quote, and `start = 0`.
The loop starts at `end = start + 1`, i.e. it never inspects index 0; it
stops at the first quote at index ≥ 1 or at the end of the buffer.  The token
text is `content[0..end]` and the returned consumed length is `end + 2`.
When the buffer after the quote is empty, `end = 1 > len` and the slice
`&content[0..1]` is out of range: Rust panics, modelled by `none`. -/
def scan_string (content : List Char) : Option (JsonTokens × Nat) :=
  match content with
  | [] => none
  | c0 :: cs =>
    let e := 1 + (cs.takeWhile (fun c => !(c = '"'))).length
    some (.string (c0 :: cs.takeWhile (fun c => !(c = '"'))) e, e + 2)

/-- Embeds `scan_identifier` (src/main.rs lines 40-62), specialised to its
call pattern `scan_identifier(&content, current)`: `content` here is the
buffer suffix starting at `current`.  It consumes the identifier class,
recognises the three keyword literals, and otherwise yields a generic
`identifier` token; the returned length is the lexeme length. -/
def scan_identifier (content : List Char) : JsonTokens × Nat :=
  let text := content.takeWhile isIdentChar
  let length := text.length
  let token :=
    if text = ['t', 'r', 'u', 'e'] then JsonTokens.boolean true
    else if text = ['f', 'a', 'l', 's', 'e'] then JsonTokens.boolean false
    else if text = ['n', 'u', 'l', 'l'] then JsonTokens.null
    else JsonTokens.identifier text length
  (token, length)

/-- Prepends a token to the tokens of a successful lex, passing failures
through; models `tokens.push(...)` in the suffix-list formulation. -/
def withToken (t : JsonTokens) : LexResult → LexResult
  | .ok ts => .ok (t :: ts)
  | r => r

/-- The scanning loop of `scan_json` (src/main.rs lines 69-103), formulated
on the buffer suffix from the current position.  Each recursive call stands
at the start of a new lexeme.  On reaching the end of the buffer it appends
`Eof` (line 105).  After a quote, `scan_string` runs on the suffix past the
quote and the cursor advances by the returned length, i.e. the remaining
suffix drops `length - 1` characters of the post-quote suffix. -/
def scan_json_go : Nat → List Char → LexResult
  | 0, _ => .outOfFuel
  | _ + 1, [] => .ok [.eof]
  | f + 1, c :: cs =>
    if isAsciiWhitespace c then scan_json_go f cs
    else if c = '{' then withToken .openCurlyBrace (scan_json_go f cs)
    else if c = '}' then withToken .closingCurlyBrace (scan_json_go f cs)
    else if c = '[' then withToken .openSquareBrace (scan_json_go f cs)
    else if c = ']' then withToken .closingSquareBrace (scan_json_go f cs)
    else if c = ':' then withToken .colon (scan_json_go f cs)
    else if c = ',' then withToken .comma (scan_json_go f cs)
    else if c = '"' then
      match scan_string cs with
      | none => .panic
      | some ti => withToken ti.1 (scan_json_go f (cs.drop (ti.2 - 1)))
    else if isIdentChar c then
      withToken (scan_identifier (c :: cs)).1
        (scan_json_go f ((c :: cs).drop (scan_identifier (c :: cs)).2))
    else .panic

/-- Embeds `scan_json` (src/main.rs lines 64-108).  The loop consumes at
least one character per step, so `length + 1` fuel always suffices. -/
def scan_json (content : List Char) : LexResult :=
  scan_json_go (content.length + 1) content

mutual

/-- Embeds `Parser::parse_json_value` (src/main.rs lines 174-184): `advance`
one token and dispatch.  Note that only `String`, `Boolean`, `Null` and
`OpenCurlyBrace` are accepted; every other token, `Identifier` and
`OpenSquareBrace` included, takes the wildcard arm `Err(InvalidValue)`. -/
def parse_json_value : Nat → List JsonTokens → PResult
  | 0, _ => .outOfFuel
  | _ + 1, [] => .panic
  | f + 1, t :: rest =>
    match t with
    | .string _ _ => .ok rest
    | .boolean _ => .ok rest
    | .null => .ok rest
    | .openCurlyBrace => parse_json_object f rest
    | _ => .error .invalidValue

/-- Embeds the loop of `Parser::parse_json_array` (src/main.rs lines
185-201): if the current token is `]`, consume it and stop; otherwise parse
one value, then consume a comma if present, and loop in either case. -/
def parse_json_array : Nat → List JsonTokens → PResult
  | 0, _ => .outOfFuel
  | _ + 1, [] => .panic
  | f + 1, t :: rest =>
    if t = .closingSquareBrace then .ok rest
    else
      match parse_json_value f (t :: rest) with
      | .ok rest' =>
        match rest' with
        | [] => .panic
        | c :: rest'' =>
          if c = .comma then parse_json_array f rest''
          else parse_json_array f (c :: rest'')
      | r => r

/-- Embeds the loop of `Parser::parse_key_value_pair` (src/main.rs lines
203-236): consume a key (`Identifier` or `String`), require a colon, consume
it, consume and dispatch on the value token, then run the comma check of
lines 228-233 (modelled by `kv_comma_check`). -/
def parse_key_value_pair : Nat → List JsonTokens → PResult
  | 0, _ => .outOfFuel
  | _ + 1, [] => .panic
  | f + 1, k :: rest =>
    match k with
    | .identifier _ _ | .string _ _ =>
      match rest with
      | [] => .panic
      | c :: rest₁ =>
        if c = .colon then
          match rest₁ with
          | [] => .panic
          | v :: rest₂ =>
            match v with
            | .identifier _ _ => kv_comma_check f rest₂
            | .string _ _ => kv_comma_check f rest₂
            | .boolean _ => kv_comma_check f rest₂
            | .null => kv_comma_check f rest₂
            | .openCurlyBrace =>
              match parse_json_object f rest₂ with
              | .ok rest₃ => kv_comma_check f rest₃
              | r => r
            | .openSquareBrace =>
              match parse_json_array f rest₂ with
              | .ok rest₃ => kv_comma_check f rest₃
              | r => r
            | _ => .error .invalidValueInCurrentContext
        else .error .invalidSymbolInCurrentContext
    | _ => .error .invalidKey

/-- The tail of each `parse_key_value_pair` iteration (src/main.rs lines
228-233): if the current token is a comma, consume it and re-enter the
member loop; otherwise break out with success, leaving the token stream
untouched. -/
def kv_comma_check : Nat → List JsonTokens → PResult
  | 0, _ => .outOfFuel
  | _ + 1, [] => .panic
  | f + 1, c :: rest =>
    if c = .comma then parse_key_value_pair f rest
    else .ok (c :: rest)

/-- Embeds `Parser::parse_json_object` (src/main.rs lines 238-261): peek
(without consuming) at the current token; `}` returns success immediately
(the empty-object early return of line 243, skipping the closing-brace check
at the bottom); a key token delegates to the member loop and then requires
the current token to be `}` (lines 256-258, again without consuming it);
every other token is an error, `Eof` being `EmptyJson`. -/
def parse_json_object : Nat → List JsonTokens → PResult
  | 0, _ => .outOfFuel
  | _ + 1, [] => .panic
  | f + 1, t :: rest =>
    match t with
    | .openCurlyBrace => .error .invalidSymbolInCurrentContext
    | .closingCurlyBrace => .ok (.closingCurlyBrace :: rest)
    | .openSquareBrace => .error .invalidSymbolInCurrentContext
    | .closingSquareBrace => .error .invalidSymbolInCurrentContext
    | .colon => .error .invalidSymbolInCurrentContext
    | .comma => .error .invalidSymbolInCurrentContext
    | .identifier _ _ | .string _ _ =>
      match parse_key_value_pair f (t :: rest) with
      | .ok rest' =>
        match rest' with
        | [] => .panic
        | c :: r => if c = .closingCurlyBrace then .ok (c :: r) else .error .missingSymbol
      | r => r
    | .boolean _ => .error .invalidSymbolInCurrentContext
    | .null => .error .invalidValueInCurrentContext
    | .eof => .error .emptyJson

end

/-- Embeds `Parser::parse` (src/main.rs lines 263-280): consume the first
token; `{` enters the object rule, every structural token is
`InvalidSymbolInCurrentContext`, and every value-like token — `Eof`
included — is `InvalidValueInCurrentContext`. -/
def Parser.parse : Nat → List JsonTokens → PResult
  | 0, _ => .outOfFuel
  | _ + 1, [] => .panic
  | f + 1, t :: rest =>
    match t with
    | .openCurlyBrace => parse_json_object f rest
    | .closingCurlyBrace => .error .invalidSymbolInCurrentContext
    | .openSquareBrace => .error .invalidSymbolInCurrentContext
    | .closingSquareBrace => .error .invalidSymbolInCurrentContext
    | .colon => .error .invalidSymbolInCurrentContext
    | .identifier _ _ => .error .invalidValueInCurrentContext
    | .boolean _ => .error .invalidValueInCurrentContext
    | .null => .error .invalidValueInCurrentContext
    | .string _ _ => .error .invalidValueInCurrentContext
    | .comma => .error .invalidSymbolInCurrentContext
    | .eof => .error .invalidValueInCurrentContext

/-- Fuel supplied to a full parse: each parser call either consumes a token
or moves to a rule that does on its next step, so a generous linear bound in
the stream length covers every terminating run examined here. -/
def fuelFor (ts : List JsonTokens) : Nat :=
  4 * ts.length + 4

/-- A full parse of a token stream, as performed by `Parser::new` followed by
`Parser::parse` in `main` (src/main.rs lines 293-294). -/
def parseTokens (ts : List JsonTokens) : PResult :=
  Parser.parse (fuelFor ts) ts

/-- The two-stage pipeline of `main` (src/main.rs lines 290-294): lex, then
parse the resulting token stream.  `none` means the lexer did not return a
token stream (panic, or the fuel artefact). -/
def parse_document (content : List Char) : Option PResult :=
  match scan_json content with
  | .ok ts => some (parseTokens ts)
  | _ => none

/-- The buffer of the spec's test vector for a trailing comma inside an
array, the character list of the text between the outer quotes of
`"{ \"k\": [\"a\",] }"`. -/
def c2_input : List Char :=
  ['{', ' ', '"', 'k', '"', ':', ' ', '[', '"', 'a', '"', ',', ']', ' ', '}']

/-- The buffer of the spec's missing-closing-brace test vector, the character
list of the text between the outer quotes of `"{ \"k\": \"v\" "`. -/
def c4_input : List Char :=
  ['{', ' ', '"', 'k', '"', ':', ' ', '"', 'v', '"', ' ']

/-- A buffer whose single member has an empty-object value and whose outer
closing brace is absent: the character list of `{"k":{}`. -/
def c10_input : List Char :=
  ['{', '"', 'k', '"', ':', '{', '}']

/-- The token stream of the document `{"k":[[]]}`: the sole array element is
itself an array, i.e. an `OpenBracket` token stands in an array element
position. -/
def c1_tokens : List JsonTokens :=
  [.openCurlyBrace, .string ['k'] 1, .colon, .openSquareBrace,
   .openSquareBrace, .closingSquareBrace, .closingSquareBrace,
   .closingCurlyBrace, .eof]

/-- A parser rule `F` at fuel `f` is prefix-local: a successful run consumed
a prefix `c` of its input and depends on the unconsumed suffix `r` only
through its first token, so the suffix may be replaced by any list with the
same head (and the fuel enlarged) without changing success. -/
abbrev OkExtends (F : Nat → List JsonTokens → PResult) (f : Nat) : Prop :=
  ∀ l r, F f l = .ok r →
    ∃ c, l = c ++ r ∧
      ∀ f' r', f ≤ f' → r'.head? = r.head? → F f' (c ++ r') = .ok r'

/-- `OkExtends` strengthened with the fact that the rule consumes at least
one token on success. -/
abbrev OkExtendsC (F : Nat → List JsonTokens → PResult) (f : Nat) : Prop :=
  ∀ l r, F f l = .ok r →
    ∃ c, c ≠ [] ∧ l = c ++ r ∧
      ∀ f' r', f ≤ f' → r'.head? = r.head? → F f' (c ++ r') = .ok r'

theorem withToken_ok {t : JsonTokens} {r : LexResult} {ts : List JsonTokens}
    (h : withToken t r = .ok ts) : ∃ ts', r = .ok ts' ∧ ts = t :: ts' := by
  cases r with
  | ok ts' => exact ⟨ts', rfl, by simpa [withToken] using h.symm⟩
  | panic => simp [withToken] at h
  | outOfFuel => simp [withToken] at h

theorem takeWhile_append_of_all {p : Char → Bool} :
    ∀ (t r : List Char), (∀ c ∈ t, p c = true) →
      (∀ c, r.head? = some c → p c = false) →
      (t ++ r).takeWhile p = t := by
  intro t
  induction t with
  | nil =>
    intro r _ h2
    cases r with
    | nil => rfl
    | cons a r' => simp [List.takeWhile_cons, h2 a rfl]
  | cons a t' ih =>
    intro r h1 h2
    have ha : p a = true := h1 a (List.mem_cons_self _ _)
    simp [List.takeWhile_cons, ha,
      ih r (fun c hc => h1 c (List.mem_cons_of_mem _ hc)) h2]

/-- Round-trip of `scan_string` on a well-behaved lexeme: when the text
between the quotes is non-empty and quote-free and the closing quote is
present, the token text is exactly the inner text (quotes excluded) and the
consumed length is the inner length plus two. -/
theorem scan_string_exact (s rest : List Char) (hs : s ≠ [])
    (hq : ∀ c ∈ s, c ≠ '"') :
    scan_string (s ++ '"' :: rest) = some (.string s s.length, s.length + 2) := by
  cases s with
  | nil => exact absurd rfl hs
  | cons c0 s' =>
    have htw : (s' ++ '"' :: rest).takeWhile (fun c => !(c = '"')) = s' := by
      apply takeWhile_append_of_all
      · intro c hc
        simp [hq c (List.mem_cons_of_mem _ hc)]
      · intro c hc
        simp only [List.head?_cons, Option.some.injEq] at hc
        simp [← hc]
    simp [scan_string, htw, List.length_cons, Nat.add_comm]

/-- Round-trip of `scan_identifier` on a maximal non-keyword lexeme: the
token text is exactly the original identifier text and the consumed length
is its length. -/
theorem scan_identifier_exact (t rest : List Char) (h1 : ∀ c ∈ t, isIdentChar c = true)
    (h2 : ∀ c, rest.head? = some c → isIdentChar c = false)
    (hkw : t ≠ ['t', 'r', 'u', 'e'] ∧ t ≠ ['f', 'a', 'l', 's', 'e'] ∧
      t ≠ ['n', 'u', 'l', 'l']) :
    scan_identifier (t ++ rest) = (.identifier t t.length, t.length) := by
  have htw : (t ++ rest).takeWhile isIdentChar = t :=
    takeWhile_append_of_all t rest h1 h2
  simp [scan_identifier, htw, hkw.1, hkw.2.1, hkw.2.2]

theorem scan_ws_only : ∀ (f : Nat) (l : List Char), l.length < f →
    (∀ c ∈ l, isAsciiWhitespace c = true) → scan_json_go f l = .ok [.eof] := by
  intro f
  induction f with
  | zero => intro l h _; exact absurd h (Nat.not_lt_zero _)
  | succ f ih =>
    intro l hlen hws
    cases l with
    | nil => simp [scan_json_go]
    | cons c cs =>
      have hc : isAsciiWhitespace c = true := hws c (List.mem_cons_self c cs)
      simp only [List.length_cons] at hlen
      simp only [scan_json_go, hc, if_true]
      exact ih cs (Nat.lt_of_succ_lt_succ hlen)
        (fun x hx => hws x (List.mem_cons_of_mem _ hx))

theorem scan_json_go_ends_eof : ∀ (f : Nat) (l : List Char) (ts : List JsonTokens),
    scan_json_go f l = .ok ts → ∃ ts₀, ts = ts₀ ++ [.eof] := by
  intro f
  induction f with
  | zero => intro l ts h; simp [scan_json_go] at h
  | succ f ih =>
    intro l ts h
    cases l with
    | nil =>
      simp only [scan_json_go, LexResult.ok.injEq] at h
      exact ⟨[], h.symm⟩
    | cons c cs =>
      simp only [scan_json_go] at h
      split at h
      · exact ih _ _ h
      split at h
      · obtain ⟨ts', hr, rfl⟩ := withToken_ok h
        obtain ⟨ts₀, rfl⟩ := ih _ _ hr
        exact ⟨_ :: ts₀, rfl⟩
      split at h
      · obtain ⟨ts', hr, rfl⟩ := withToken_ok h
        obtain ⟨ts₀, rfl⟩ := ih _ _ hr
        exact ⟨_ :: ts₀, rfl⟩
      split at h
      · obtain ⟨ts', hr, rfl⟩ := withToken_ok h
        obtain ⟨ts₀, rfl⟩ := ih _ _ hr
        exact ⟨_ :: ts₀, rfl⟩
      split at h
      · obtain ⟨ts', hr, rfl⟩ := withToken_ok h
        obtain ⟨ts₀, rfl⟩ := ih _ _ hr
        exact ⟨_ :: ts₀, rfl⟩
      split at h
      · obtain ⟨ts', hr, rfl⟩ := withToken_ok h
        obtain ⟨ts₀, rfl⟩ := ih _ _ hr
        exact ⟨_ :: ts₀, rfl⟩
      split at h
      · obtain ⟨ts', hr, rfl⟩ := withToken_ok h
        obtain ⟨ts₀, rfl⟩ := ih _ _ hr
        exact ⟨_ :: ts₀, rfl⟩
      split at h
      · split at h
        · simp at h
        · obtain ⟨ts', hr, rfl⟩ := withToken_ok h
          obtain ⟨ts₀, rfl⟩ := ih _ _ hr
          exact ⟨_ :: ts₀, rfl⟩
      split at h
      · obtain ⟨ts', hr, rfl⟩ := withToken_ok h
        obtain ⟨ts₀, rfl⟩ := ih _ _ hr
        exact ⟨_ :: ts₀, rfl⟩
      · simp at h

/-- C1, counterexample: in the token stream of `{"k":[[]]}` the sole array
element position holds an `OpenBracket` token, yet the parse returns
`InvalidValue` — `parse_json_value`, the rule for array elements, has no arm
for `OpenSquareBrace` (nor for `Identifier`), so such an element does not
succeed, refuting the claim that every value position accepts the same
token set. -/
theorem claim_C1_counterexample :
    parseTokens c1_tokens = .error .invalidValue := by decide

/-- C1, amended: the two value positions accept different token sets.  In an
array element position (`parse_json_value`) a `String`, `Boolean` or `Null`
token is terminal and `OpenBrace` recurses into the object rule, but an
`Identifier` or `OpenBracket` token yields `InvalidValue`; in a member's
value position (`parse_key_value_pair`) an `Identifier` is additionally a
terminal value and `OpenBracket` recurses into the array rule. -/
theorem claim_C1 (f : Nat) (rest : List JsonTokens) (s : List Char) (n : Nat) :
    parse_json_value (f + 2) (.identifier s n :: rest) = .error .invalidValue
  ∧ parse_json_value (f + 2) (.openSquareBrace :: rest) = .error .invalidValue
  ∧ parse_json_value (f + 2) (.string s n :: rest) = .ok rest
  ∧ parse_json_value (f + 2) (.null :: rest) = .ok rest
  ∧ parse_key_value_pair (f + 2)
      (.string s n :: .colon :: .identifier s n :: .closingCurlyBrace :: rest)
      = .ok (.closingCurlyBrace :: rest)
  ∧ parse_key_value_pair (f + 2)
      (.string s n :: .colon :: .openSquareBrace :: .closingSquareBrace ::
        .closingCurlyBrace :: rest)
      = .ok (.closingCurlyBrace :: rest) :=
  ⟨rfl, rfl, rfl, rfl, rfl, rfl⟩

/-- C2: the code accepts the trailing comma.  Lexing and parsing the buffer
`{ "k": ["a",] }` succeeds (`parse` returns `Ok`), because the array loop
tests for `]` before parsing a value, so a `]` immediately after a comma
ends the array; the claim (and the spec's test vector) says this input must
fail. -/
theorem claim_C2 :
    parse_document c2_input = some (.ok [.closingCurlyBrace, .eof]) := by decide

/-- C3, counterexample: the empty buffer lexes to `[Eof]` and the parse
fails with `InvalidValueInCurrentContext` — the `Eof` arm of `parse` — and
not with `EmptyJson` (the code's `EmptyDocument`), refuting the claimed
error variant. -/
theorem claim_C3_counterexample :
    scan_json [] = .ok [.eof]
  ∧ parseTokens [.eof] = .error .invalidValueInCurrentContext
  ∧ ParserError.invalidValueInCurrentContext ≠ ParserError.emptyJson := by decide

/-- C3, amended: for every buffer that is empty or consists only of ASCII
whitespace, lexing succeeds with the token stream `[Eof]` and the subsequent
parse fails with `InvalidValueInCurrentContext` (the top-level `Eof` arm of
`parse`), not with `EmptyJson`. -/
theorem claim_C3 (content : List Char)
    (h : ∀ c ∈ content, isAsciiWhitespace c = true) :
    scan_json content = .ok [.eof]
  ∧ parseTokens [.eof] = .error .invalidValueInCurrentContext :=
  ⟨scan_ws_only (content.length + 1) content (Nat.lt_succ_self _) h, by decide⟩

/-- Witness for C3 at the one-space buffer. -/
theorem claim_C3_witness :
    scan_json [' '] = .ok [.eof]
  ∧ parseTokens [.eof] = .error .invalidValueInCurrentContext :=
  claim_C3 [' '] (by decide)

/-- C4: parsing `{ "k": "v" ` — one well-formed member, closing brace
absent — fails with `MissingSymbol`, the missing-closing-brace variant,
which is distinct from the malformed-member variants `InvalidKey` and
`InvalidValueInCurrentContext`. -/
theorem claim_C4 :
    parse_document c4_input = some (.error .missingSymbol)
  ∧ ParserError.missingSymbol ≠ ParserError.invalidKey
  ∧ ParserError.missingSymbol ≠ ParserError.invalidValueInCurrentContext := by
  decide

/-- C5: for every token stream whose first token is not `OpenBrace`, `parse`
returns an error — the document cannot be empty, an array, or a bare value
at the top level. -/
theorem claim_C5 (t : JsonTokens) (rest : List JsonTokens)
    (h : t ≠ .openCurlyBrace) :
    ∃ e, parseTokens (t :: rest) = .error e := by
  cases t with
  | openCurlyBrace => exact absurd rfl h
  | closingCurlyBrace => exact ⟨.invalidSymbolInCurrentContext, rfl⟩
  | openSquareBrace => exact ⟨.invalidSymbolInCurrentContext, rfl⟩
  | closingSquareBrace => exact ⟨.invalidSymbolInCurrentContext, rfl⟩
  | colon => exact ⟨.invalidSymbolInCurrentContext, rfl⟩
  | comma => exact ⟨.invalidSymbolInCurrentContext, rfl⟩
  | identifier s n => exact ⟨.invalidValueInCurrentContext, rfl⟩
  | string s n => exact ⟨.invalidValueInCurrentContext, rfl⟩
  | boolean b => exact ⟨.invalidValueInCurrentContext, rfl⟩
  | null => exact ⟨.invalidValueInCurrentContext, rfl⟩
  | eof => exact ⟨.invalidValueInCurrentContext, rfl⟩

/-- Witness for C5 at the stream `[Eof]`. -/
theorem claim_C5_witness : ∃ e, parseTokens [.eof] = .error e :=
  claim_C5 .eof [] (by decide)

/-- C6: when the scanning loop stands at a byte that is not whitespace, not
structural, not a quote and not an identifier start, it panics — the whole
scan, from that position and hence for the whole buffer, ends in the `panic`
outcome rather than any recoverable value.  The second conjunct instantiates
this for a buffer whose first lexeme starts with such a byte. -/
theorem claim_C6 (f : Nat) (c : Char) (cs : List Char)
    (h : isKnownStart c = false) :
    scan_json_go (f + 1) (c :: cs) = .panic ∧ scan_json (c :: cs) = .panic := by
  simp only [isKnownStart, Bool.or_eq_false_iff, decide_eq_false_iff_not] at h
  obtain ⟨⟨⟨⟨⟨⟨⟨⟨hws, h1⟩, h2⟩, h3⟩, h4⟩, h5⟩, h6⟩, h7⟩, h8⟩ := h
  constructor
  · simp [scan_json_go, hws, h1, h2, h3, h4, h5, h6, h7, h8]
  · simp [scan_json, scan_json_go, hws, h1, h2, h3, h4, h5, h6, h7, h8]

/-- Witness for C6 at the byte `%`. -/
theorem claim_C6_witness :
    scan_json_go 1 ['%'] = .panic ∧ scan_json ['%'] = .panic :=
  claim_C6 0 '%' [] (by decide)

/-- C7: whenever the lexer returns a token stream, that stream is non-empty
and its last element is `Eof`. -/
theorem claim_C7 (content : List Char) (ts : List JsonTokens)
    (h : scan_json content = .ok ts) :
    ts ≠ [] ∧ ts.getLast? = some .eof := by
  obtain ⟨ts₀, rfl⟩ := scan_json_go_ends_eof (content.length + 1) content ts h
  refine ⟨by simp, ?_⟩
  simp [List.getLast?_append]

/-- Witness for C7 at the empty buffer. -/
theorem claim_C7_witness :
    ([JsonTokens.eof] ≠ []) ∧ [JsonTokens.eof].getLast? = some .eof :=
  claim_C7 [] [.eof] (by decide)

/-- C8: the failing input is the buffer `""` (an empty string literal).
`scan_string` runs on the suffix after the opening quote, `['"']`; because
its scan starts one past its start index, it misses the closing quote at
offset 0 and returns the token text `['"']` — which contains a delimiting
quote and differs from the empty inner text — with recorded length 1 and
consumed length 3, not the inner length plus two (= 2).  Lexing the whole
buffer therefore yields a string token whose text is a quote character, so
re-joining the lexeme texts does not recover the original literal text. -/
theorem claim_C8 :
    scan_string ['"'] = some (.string ['"'] 1, 3)
  ∧ scan_json ['"', '"'] = .ok [.string ['"'] 1, .eof]
  ∧ (['"'] : List Char) ≠ [] := by decide

/-- C10: the object rule entered at a `}` returns success immediately
without consuming the brace, so for a member whose value is an empty object
the enclosing object's closing-brace check matches the inner brace; in
particular the buffer `{"k":{}`, whose outer closing brace is absent,
parses successfully. -/
theorem claim_C10 (f : Nat) (rest : List JsonTokens) :
    parse_json_object (f + 1) (.closingCurlyBrace :: rest)
      = .ok (.closingCurlyBrace :: rest)
  ∧ parse_document c10_input = some (.ok [.closingCurlyBrace, .eof]) :=
  ⟨rfl, by decide⟩

theorem exists_succ_of_le {f f' : Nat} (h : f + 1 ≤ f') : ∃ k, f' = k + 1 ∧ f ≤ k :=
  ⟨f' - 1, by omega, by omega⟩

theorem head?_append_congr {α : Type} {r r' : List α} (c : List α)
    (h : r'.head? = r.head?) : (c ++ r').head? = (c ++ r).head? := by
  cases c <;> simp [h]

theorem okExt_all : ∀ f : Nat,
    OkExtendsC parse_json_value f ∧ OkExtendsC parse_json_array f
  ∧ OkExtendsC parse_key_value_pair f ∧ OkExtends kv_comma_check f
  ∧ OkExtends parse_json_object f ∧ OkExtends Parser.parse f := by
  intro f
  induction f with
  | zero =>
    refine ⟨?_, ?_, ?_, ?_, ?_, ?_⟩ <;> intro l r h <;>
      simp [parse_json_value, parse_json_array, parse_key_value_pair,
        kv_comma_check, parse_json_object, Parser.parse] at h
  | succ f ih =>
    obtain ⟨ihv, iha, ihk, ihc, iho, ihp⟩ := ih
    refine ⟨?_, ?_, ?_, ?_, ?_, ?_⟩
    · -- parse_json_value
      intro l r h
      cases l with
      | nil => simp [parse_json_value] at h
      | cons t rest =>
        cases t with
        | openCurlyBrace =>
          simp only [parse_json_value] at h
          obtain ⟨c₁, hceq, hrun⟩ := iho rest r h
          refine ⟨.openCurlyBrace :: c₁, by simp, by simp [hceq], ?_⟩
          intro f' r' hf hh
          obtain ⟨f₂, rfl, hf₂⟩ := exists_succ_of_le hf
          have hobj := hrun f₂ r' hf₂ hh
          simpa [parse_json_value] using hobj
        | string s n =>
          simp only [parse_json_value, PResult.ok.injEq] at h
          subst h
          refine ⟨[.string s n], by simp, by simp, ?_⟩
          intro f' r' hf hh
          obtain ⟨f₂, rfl, -⟩ := exists_succ_of_le hf
          simp [parse_json_value]
        | boolean b =>
          simp only [parse_json_value, PResult.ok.injEq] at h
          subst h
          refine ⟨[.boolean b], by simp, by simp, ?_⟩
          intro f' r' hf hh
          obtain ⟨f₂, rfl, -⟩ := exists_succ_of_le hf
          simp [parse_json_value]
        | null =>
          simp only [parse_json_value, PResult.ok.injEq] at h
          subst h
          refine ⟨[.null], by simp, by simp, ?_⟩
          intro f' r' hf hh
          obtain ⟨f₂, rfl, -⟩ := exists_succ_of_le hf
          simp [parse_json_value]
        | identifier s n => simp [parse_json_value] at h
        | closingCurlyBrace => simp [parse_json_value] at h
        | openSquareBrace => simp [parse_json_value] at h
        | closingSquareBrace => simp [parse_json_value] at h
        | colon => simp [parse_json_value] at h
        | comma => simp [parse_json_value] at h
        | eof => simp [parse_json_value] at h
    · -- parse_json_array
      intro l r h
      cases l with
      | nil => simp [parse_json_array] at h
      | cons t rest =>
        by_cases ht : t = .closingSquareBrace
        · subst ht
          simp only [parse_json_array, if_true, eq_self_iff_true, PResult.ok.injEq] at h
          subst h
          refine ⟨[.closingSquareBrace], by simp, by simp, ?_⟩
          intro f' r' hf hh
          obtain ⟨f₂, rfl, -⟩ := exists_succ_of_le hf
          simp [parse_json_array]
        · simp only [parse_json_array, if_neg ht] at h
          cases hv : parse_json_value f (t :: rest) with
          | error e => rw [hv] at h; simp at h
          | panic => rw [hv] at h; simp at h
          | outOfFuel => rw [hv] at h; simp at h
          | ok rest' =>
            rw [hv] at h
            dsimp only [] at h
            obtain ⟨c₁, hc₁ne, hceq₁, hrun₁⟩ := ihv _ _ hv
            cases rest' with
            | nil => simp at h
            | cons c₀ rest'' =>
              dsimp only [] at h
              obtain ⟨c₁', rfl⟩ : ∃ c₁', c₁ = t :: c₁' := by
                cases c₁ with
                | nil => exact absurd rfl hc₁ne
                | cons a c₁' =>
                  refine ⟨c₁', ?_⟩
                  injection hceq₁ with h1 h2
                  rw [h1]
              by_cases hc : c₀ = .comma
              · subst hc
                rw [if_pos rfl] at h
                obtain ⟨c₂, hc₂ne, hceq₂, hrun₂⟩ := iha _ _ h
                refine ⟨(t :: c₁') ++ .comma :: c₂, by simp, ?_, ?_⟩
                · rw [hceq₁, hceq₂]
                  simp [List.append_assoc]
                · intro f' r' hf hh
                  obtain ⟨f₂, rfl, hf₂⟩ := exists_succ_of_le hf
                  have hv' : parse_json_value f₂ (t :: (c₁' ++ .comma :: (c₂ ++ r')))
                      = .ok (.comma :: (c₂ ++ r')) := by
                    simpa using hrun₁ f₂ (.comma :: (c₂ ++ r')) hf₂ (by simp)
                  have ha' := hrun₂ f₂ r' hf₂ hh
                  simp only [List.cons_append, List.append_assoc]
                  simp only [parse_json_array, if_neg ht]
                  rw [hv']
                  dsimp only []
                  rw [if_pos rfl]
                  exact ha'
              · rw [if_neg hc] at h
                obtain ⟨c₂, hc₂ne, hceq₂, hrun₂⟩ := iha _ _ h
                obtain ⟨c₂', rfl⟩ : ∃ c₂', c₂ = c₀ :: c₂' := by
                  cases c₂ with
                  | nil => exact absurd rfl hc₂ne
                  | cons a c₂' =>
                    refine ⟨c₂', ?_⟩
                    injection hceq₂ with h1 h2
                    rw [h1]
                refine ⟨(t :: c₁') ++ (c₀ :: c₂'), by simp, ?_, ?_⟩
                · rw [hceq₁]
                  have : c₀ :: rest'' = (c₀ :: c₂') ++ r := hceq₂
                  rw [this]
                  simp [List.append_assoc]
                · intro f' r' hf hh
                  obtain ⟨f₂, rfl, hf₂⟩ := exists_succ_of_le hf
                  have hv' : parse_json_value f₂ (t :: (c₁' ++ (c₀ :: (c₂' ++ r'))))
                      = .ok (c₀ :: (c₂' ++ r')) := by
                    simpa using hrun₁ f₂ (c₀ :: (c₂' ++ r')) hf₂ (by simp)
                  have ha' := hrun₂ f₂ r' hf₂ hh
                  simp only [List.cons_append, List.append_assoc]
                  simp only [parse_json_array, if_neg ht]
                  rw [hv']
                  dsimp only []
                  rw [if_neg hc]
                  simpa using ha'
    · -- parse_key_value_pair
      intro l r h
      cases l with
      | nil => simp [parse_key_value_pair] at h
      | cons k rest =>
        cases k with
        | identifier ks kn =>
          cases rest with
          | nil => simp [parse_key_value_pair] at h
          | cons c rest₁ =>
            by_cases hcol : c = .colon
            · subst hcol
              cases rest₁ with
              | nil => simp [parse_key_value_pair] at h
              | cons v rest₂ =>
                simp only [parse_key_value_pair, if_true, eq_self_iff_true] at h
                cases v with
                | identifier vs vn =>
                  dsimp only [] at h
                  obtain ⟨c₃, hceq₃, hrun₃⟩ := ihc _ _ h
                  subst hceq₃
                  refine ⟨(.identifier ks kn) :: .colon :: (.identifier vs vn) :: c₃, by simp, by simp, ?_⟩
                  intro f' r' hf hh
                  obtain ⟨f₂, rfl, hf₂⟩ := exists_succ_of_le hf
                  have hcc := hrun₃ f₂ r' hf₂ hh
                  simp only [List.cons_append]
                  simpa [parse_key_value_pair] using hcc
                | string vs vn =>
                  dsimp only [] at h
                  obtain ⟨c₃, hceq₃, hrun₃⟩ := ihc _ _ h
                  subst hceq₃
                  refine ⟨(.identifier ks kn) :: .colon :: (.string vs vn) :: c₃, by simp, by simp, ?_⟩
                  intro f' r' hf hh
                  obtain ⟨f₂, rfl, hf₂⟩ := exists_succ_of_le hf
                  have hcc := hrun₃ f₂ r' hf₂ hh
                  simp only [List.cons_append]
                  simpa [parse_key_value_pair] using hcc
                | boolean vb =>
                  dsimp only [] at h
                  obtain ⟨c₃, hceq₃, hrun₃⟩ := ihc _ _ h
                  subst hceq₃
                  refine ⟨(.identifier ks kn) :: .colon :: (.boolean vb) :: c₃, by simp, by simp, ?_⟩
                  intro f' r' hf hh
                  obtain ⟨f₂, rfl, hf₂⟩ := exists_succ_of_le hf
                  have hcc := hrun₃ f₂ r' hf₂ hh
                  simp only [List.cons_append]
                  simpa [parse_key_value_pair] using hcc
                | null =>
                  dsimp only [] at h
                  obtain ⟨c₃, hceq₃, hrun₃⟩ := ihc _ _ h
                  subst hceq₃
                  refine ⟨(.identifier ks kn) :: .colon :: (.null) :: c₃, by simp, by simp, ?_⟩
                  intro f' r' hf hh
                  obtain ⟨f₂, rfl, hf₂⟩ := exists_succ_of_le hf
                  have hcc := hrun₃ f₂ r' hf₂ hh
                  simp only [List.cons_append]
                  simpa [parse_key_value_pair] using hcc
                | openCurlyBrace =>
                  dsimp only [] at h
                  cases hv : parse_json_object f rest₂ with
                  | error e => rw [hv] at h; simp at h
                  | panic => rw [hv] at h; simp at h
                  | outOfFuel => rw [hv] at h; simp at h
                  | ok rest₃ =>
                    rw [hv] at h
                    dsimp only [] at h
                    obtain ⟨c₂, hceq₂, hrun₂⟩ := iho _ _ hv
                    obtain ⟨c₃, hceq₃, hrun₃⟩ := ihc _ _ h
                    subst hceq₃
                    subst hceq₂
                    refine ⟨(.identifier ks kn) :: .colon :: (.openCurlyBrace) :: (c₂ ++ c₃), by simp, by simp, ?_⟩
                    intro f' r' hf hh
                    obtain ⟨f₂, rfl, hf₂⟩ := exists_succ_of_le hf
                    have hnest : parse_json_object f₂ (c₂ ++ (c₃ ++ r')) = .ok (c₃ ++ r') :=
                      hrun₂ f₂ (c₃ ++ r') hf₂ (head?_append_congr c₃ hh)
                    have hcc := hrun₃ f₂ r' hf₂ hh
                    simp only [List.cons_append, List.append_assoc]
                    simp only [parse_key_value_pair, if_true, eq_self_iff_true]
                    rw [hnest]
                    dsimp only []
                    exact hcc
                | openSquareBrace =>
                  dsimp only [] at h
                  cases hv : parse_json_array f rest₂ with
                  | error e => rw [hv] at h; simp at h
                  | panic => rw [hv] at h; simp at h
                  | outOfFuel => rw [hv] at h; simp at h
                  | ok rest₃ =>
                    rw [hv] at h
                    dsimp only [] at h
                    obtain ⟨c₂, -, hceq₂, hrun₂⟩ := iha _ _ hv
                    obtain ⟨c₃, hceq₃, hrun₃⟩ := ihc _ _ h
                    subst hceq₃
                    subst hceq₂
                    refine ⟨(.identifier ks kn) :: .colon :: (.openSquareBrace) :: (c₂ ++ c₃), by simp, by simp, ?_⟩
                    intro f' r' hf hh
                    obtain ⟨f₂, rfl, hf₂⟩ := exists_succ_of_le hf
                    have hnest : parse_json_array f₂ (c₂ ++ (c₃ ++ r')) = .ok (c₃ ++ r') :=
                      hrun₂ f₂ (c₃ ++ r') hf₂ (head?_append_congr c₃ hh)
                    have hcc := hrun₃ f₂ r' hf₂ hh
                    simp only [List.cons_append, List.append_assoc]
                    simp only [parse_key_value_pair, if_true, eq_self_iff_true]
                    rw [hnest]
                    dsimp only []
                    exact hcc
                | closingCurlyBrace => simp at h
                | closingSquareBrace => simp at h
                | colon => simp at h
                | comma => simp at h
                | eof => simp at h
            · simp [parse_key_value_pair, hcol] at h
        | string ks kn =>
          cases rest with
          | nil => simp [parse_key_value_pair] at h
          | cons c rest₁ =>
            by_cases hcol : c = .colon
            · subst hcol
              cases rest₁ with
              | nil => simp [parse_key_value_pair] at h
              | cons v rest₂ =>
                simp only [parse_key_value_pair, if_true, eq_self_iff_true] at h
                cases v with
                | identifier vs vn =>
                  dsimp only [] at h
                  obtain ⟨c₃, hceq₃, hrun₃⟩ := ihc _ _ h
                  subst hceq₃
                  refine ⟨(.string ks kn) :: .colon :: (.identifier vs vn) :: c₃, by simp, by simp, ?_⟩
                  intro f' r' hf hh
                  obtain ⟨f₂, rfl, hf₂⟩ := exists_succ_of_le hf
                  have hcc := hrun₃ f₂ r' hf₂ hh
                  simp only [List.cons_append]
                  simpa [parse_key_value_pair] using hcc
                | string vs vn =>
                  dsimp only [] at h
                  obtain ⟨c₃, hceq₃, hrun₃⟩ := ihc _ _ h
                  subst hceq₃
                  refine ⟨(.string ks kn) :: .colon :: (.string vs vn) :: c₃, by simp, by simp, ?_⟩
                  intro f' r' hf hh
                  obtain ⟨f₂, rfl, hf₂⟩ := exists_succ_of_le hf
                  have hcc := hrun₃ f₂ r' hf₂ hh
                  simp only [List.cons_append]
                  simpa [parse_key_value_pair] using hcc
                | boolean vb =>
                  dsimp only [] at h
                  obtain ⟨c₃, hceq₃, hrun₃⟩ := ihc _ _ h
                  subst hceq₃
                  refine ⟨(.string ks kn) :: .colon :: (.boolean vb) :: c₃, by simp, by simp, ?_⟩
                  intro f' r' hf hh
                  obtain ⟨f₂, rfl, hf₂⟩ := exists_succ_of_le hf
                  have hcc := hrun₃ f₂ r' hf₂ hh
                  simp only [List.cons_append]
                  simpa [parse_key_value_pair] using hcc
                | null =>
                  dsimp only [] at h
                  obtain ⟨c₃, hceq₃, hrun₃⟩ := ihc _ _ h
                  subst hceq₃
                  refine ⟨(.string ks kn) :: .colon :: (.null) :: c₃, by simp, by simp, ?_⟩
                  intro f' r' hf hh
                  obtain ⟨f₂, rfl, hf₂⟩ := exists_succ_of_le hf
                  have hcc := hrun₃ f₂ r' hf₂ hh
                  simp only [List.cons_append]
                  simpa [parse_key_value_pair] using hcc
                | openCurlyBrace =>
                  dsimp only [] at h
                  cases hv : parse_json_object f rest₂ with
                  | error e => rw [hv] at h; simp at h
                  | panic => rw [hv] at h; simp at h
                  | outOfFuel => rw [hv] at h; simp at h
                  | ok rest₃ =>
                    rw [hv] at h
                    dsimp only [] at h
                    obtain ⟨c₂, hceq₂, hrun₂⟩ := iho _ _ hv
                    obtain ⟨c₃, hceq₃, hrun₃⟩ := ihc _ _ h
                    subst hceq₃
                    subst hceq₂
                    refine ⟨(.string ks kn) :: .colon :: (.openCurlyBrace) :: (c₂ ++ c₃), by simp, by simp, ?_⟩
                    intro f' r' hf hh
                    obtain ⟨f₂, rfl, hf₂⟩ := exists_succ_of_le hf
                    have hnest : parse_json_object f₂ (c₂ ++ (c₃ ++ r')) = .ok (c₃ ++ r') :=
                      hrun₂ f₂ (c₃ ++ r') hf₂ (head?_append_congr c₃ hh)
                    have hcc := hrun₃ f₂ r' hf₂ hh
                    simp only [List.cons_append, List.append_assoc]
                    simp only [parse_key_value_pair, if_true, eq_self_iff_true]
                    rw [hnest]
                    dsimp only []
                    exact hcc
                | openSquareBrace =>
                  dsimp only [] at h
                  cases hv : parse_json_array f rest₂ with
                  | error e => rw [hv] at h; simp at h
                  | panic => rw [hv] at h; simp at h
                  | outOfFuel => rw [hv] at h; simp at h
                  | ok rest₃ =>
                    rw [hv] at h
                    dsimp only [] at h
                    obtain ⟨c₂, -, hceq₂, hrun₂⟩ := iha _ _ hv
                    obtain ⟨c₃, hceq₃, hrun₃⟩ := ihc _ _ h
                    subst hceq₃
                    subst hceq₂
                    refine ⟨(.string ks kn) :: .colon :: (.openSquareBrace) :: (c₂ ++ c₃), by simp, by simp, ?_⟩
                    intro f' r' hf hh
                    obtain ⟨f₂, rfl, hf₂⟩ := exists_succ_of_le hf
                    have hnest : parse_json_array f₂ (c₂ ++ (c₃ ++ r')) = .ok (c₃ ++ r') :=
                      hrun₂ f₂ (c₃ ++ r') hf₂ (head?_append_congr c₃ hh)
                    have hcc := hrun₃ f₂ r' hf₂ hh
                    simp only [List.cons_append, List.append_assoc]
                    simp only [parse_key_value_pair, if_true, eq_self_iff_true]
                    rw [hnest]
                    dsimp only []
                    exact hcc
                | closingCurlyBrace => simp at h
                | closingSquareBrace => simp at h
                | colon => simp at h
                | comma => simp at h
                | eof => simp at h
            · simp [parse_key_value_pair, hcol] at h
        | openCurlyBrace => simp [parse_key_value_pair] at h
        | closingCurlyBrace => simp [parse_key_value_pair] at h
        | openSquareBrace => simp [parse_key_value_pair] at h
        | closingSquareBrace => simp [parse_key_value_pair] at h
        | colon => simp [parse_key_value_pair] at h
        | comma => simp [parse_key_value_pair] at h
        | boolean b => simp [parse_key_value_pair] at h
        | null => simp [parse_key_value_pair] at h
        | eof => simp [parse_key_value_pair] at h
    · -- kv_comma_check
      intro l r h
      cases l with
      | nil => simp [kv_comma_check] at h
      | cons c rest =>
        by_cases hc : c = .comma
        · subst hc
          simp only [kv_comma_check, if_true, eq_self_iff_true] at h
          obtain ⟨c₁, hc₁ne, hceq₁, hrun₁⟩ := ihk _ _ h
          subst hceq₁
          refine ⟨.comma :: c₁, by simp, ?_⟩
          intro f' r' hf hh
          obtain ⟨f₂, rfl, hf₂⟩ := exists_succ_of_le hf
          have hkv := hrun₁ f₂ r' hf₂ hh
          simp only [List.cons_append]
          simpa [kv_comma_check] using hkv
        · simp only [kv_comma_check, if_neg hc, PResult.ok.injEq] at h
          subst h
          refine ⟨[], by simp, ?_⟩
          intro f' r' hf hh
          obtain ⟨f₂, rfl, -⟩ := exists_succ_of_le hf
          cases r' with
          | nil => simp at hh
          | cons a rr =>
            simp only [List.head?_cons, Option.some.injEq] at hh
            subst hh
            simp [kv_comma_check, hc]
    · -- parse_json_object
      intro l r h
      cases l with
      | nil => simp [parse_json_object] at h
      | cons t rest =>
        cases t with
        | closingCurlyBrace =>
          simp only [parse_json_object, PResult.ok.injEq] at h
          subst h
          refine ⟨[], by simp, ?_⟩
          intro f' r' hf hh
          obtain ⟨f₂, rfl, -⟩ := exists_succ_of_le hf
          cases r' with
          | nil => simp at hh
          | cons a rr =>
            simp only [List.head?_cons, Option.some.injEq] at hh
            subst hh
            simp [parse_json_object]
        | identifier ks kn =>
          simp only [parse_json_object] at h
          cases hv : parse_key_value_pair f ((.identifier ks kn) :: rest) with
          | error e => rw [hv] at h; simp at h
          | panic => rw [hv] at h; simp at h
          | outOfFuel => rw [hv] at h; simp at h
          | ok rest' =>
            rw [hv] at h
            dsimp only [] at h
            obtain ⟨c₁, hc₁ne, hceq₁, hrun₁⟩ := ihk _ _ hv
            cases rest' with
            | nil => simp at h
            | cons c₀ r₀ =>
              dsimp only [] at h
              by_cases hcb : c₀ = .closingCurlyBrace
              · subst hcb
                rw [if_pos rfl] at h
                simp only [PResult.ok.injEq] at h
                subst h
                obtain ⟨c₁', rfl⟩ : ∃ c₁', c₁ = (.identifier ks kn) :: c₁' := by
                  cases c₁ with
                  | nil => exact absurd rfl hc₁ne
                  | cons a c₁' =>
                    refine ⟨c₁', ?_⟩
                    injection hceq₁ with h1 h2
                    rw [h1]
                refine ⟨(.identifier ks kn) :: c₁', hceq₁, ?_⟩
                intro f' r' hf hh
                obtain ⟨f₂, rfl, hf₂⟩ := exists_succ_of_le hf
                cases r' with
                | nil => simp at hh
                | cons a rr =>
                  simp only [List.head?_cons, Option.some.injEq] at hh
                  subst hh
                  have hkv : parse_key_value_pair f₂ ((.identifier ks kn) :: (c₁' ++ .closingCurlyBrace :: rr))
                      = .ok (.closingCurlyBrace :: rr) := by
                    simpa using hrun₁ f₂ (.closingCurlyBrace :: rr) hf₂ (by simp)
                  simp only [List.cons_append]
                  simp only [parse_json_object]
                  rw [hkv]
                  dsimp only []
                  simp
              · rw [if_neg hcb] at h
                simp at h
        | string ks kn =>
          simp only [parse_json_object] at h
          cases hv : parse_key_value_pair f ((.string ks kn) :: rest) with
          | error e => rw [hv] at h; simp at h
          | panic => rw [hv] at h; simp at h
          | outOfFuel => rw [hv] at h; simp at h
          | ok rest' =>
            rw [hv] at h
            dsimp only [] at h
            obtain ⟨c₁, hc₁ne, hceq₁, hrun₁⟩ := ihk _ _ hv
            cases rest' with
            | nil => simp at h
            | cons c₀ r₀ =>
              dsimp only [] at h
              by_cases hcb : c₀ = .closingCurlyBrace
              · subst hcb
                rw [if_pos rfl] at h
                simp only [PResult.ok.injEq] at h
                subst h
                obtain ⟨c₁', rfl⟩ : ∃ c₁', c₁ = (.string ks kn) :: c₁' := by
                  cases c₁ with
                  | nil => exact absurd rfl hc₁ne
                  | cons a c₁' =>
                    refine ⟨c₁', ?_⟩
                    injection hceq₁ with h1 h2
                    rw [h1]
                refine ⟨(.string ks kn) :: c₁', hceq₁, ?_⟩
                intro f' r' hf hh
                obtain ⟨f₂, rfl, hf₂⟩ := exists_succ_of_le hf
                cases r' with
                | nil => simp at hh
                | cons a rr =>
                  simp only [List.head?_cons, Option.some.injEq] at hh
                  subst hh
                  have hkv : parse_key_value_pair f₂ ((.string ks kn) :: (c₁' ++ .closingCurlyBrace :: rr))
                      = .ok (.closingCurlyBrace :: rr) := by
                    simpa using hrun₁ f₂ (.closingCurlyBrace :: rr) hf₂ (by simp)
                  simp only [List.cons_append]
                  simp only [parse_json_object]
                  rw [hkv]
                  dsimp only []
                  simp
              · rw [if_neg hcb] at h
                simp at h
        | openCurlyBrace => simp [parse_json_object] at h
        | openSquareBrace => simp [parse_json_object] at h
        | closingSquareBrace => simp [parse_json_object] at h
        | colon => simp [parse_json_object] at h
        | comma => simp [parse_json_object] at h
        | boolean b => simp [parse_json_object] at h
        | null => simp [parse_json_object] at h
        | eof => simp [parse_json_object] at h
    · -- Parser.parse
      intro l r h
      cases l with
      | nil => simp [Parser.parse] at h
      | cons t rest =>
        cases t with
        | openCurlyBrace =>
          simp only [Parser.parse] at h
          obtain ⟨c₁, hceq₁, hrun₁⟩ := iho _ _ h
          subst hceq₁
          refine ⟨[.openCurlyBrace] ++ c₁, by simp, ?_⟩
          intro f' r' hf hh
          obtain ⟨f₂, rfl, hf₂⟩ := exists_succ_of_le hf
          have hobj := hrun₁ f₂ r' hf₂ hh
          simp only [List.cons_append, List.append_assoc, List.nil_append]
          simpa [Parser.parse] using hobj
        | closingCurlyBrace => simp [Parser.parse] at h
        | openSquareBrace => simp [Parser.parse] at h
        | closingSquareBrace => simp [Parser.parse] at h
        | colon => simp [Parser.parse] at h
        | comma => simp [Parser.parse] at h
        | identifier s n => simp [Parser.parse] at h
        | string s n => simp [Parser.parse] at h
        | boolean b => simp [Parser.parse] at h
        | null => simp [Parser.parse] at h
        | eof => simp [Parser.parse] at h

theorem parse_json_object_ok_head (f : Nat) (l r : List JsonTokens)
    (h : parse_json_object f l = .ok r) : r.head? = some .closingCurlyBrace := by
  cases f with
  | zero => simp [parse_json_object] at h
  | succ f =>
    cases l with
    | nil => simp [parse_json_object] at h
    | cons t rest =>
      cases t with
      | closingCurlyBrace =>
        simp only [parse_json_object, PResult.ok.injEq] at h
        subst h
        simp
      | identifier ks kn =>
        simp only [parse_json_object] at h
        cases hv : parse_key_value_pair f (.identifier ks kn :: rest) with
        | error e => rw [hv] at h; simp at h
        | panic => rw [hv] at h; simp at h
        | outOfFuel => rw [hv] at h; simp at h
        | ok rest' =>
          rw [hv] at h
          dsimp only [] at h
          cases rest' with
          | nil => simp at h
          | cons c₀ r₀ =>
            dsimp only [] at h
            by_cases hcb : c₀ = .closingCurlyBrace
            · subst hcb
              rw [if_pos rfl] at h
              simp only [PResult.ok.injEq] at h
              subst h
              simp
            · rw [if_neg hcb] at h
              simp at h
      | string ks kn =>
        simp only [parse_json_object] at h
        cases hv : parse_key_value_pair f (.string ks kn :: rest) with
        | error e => rw [hv] at h; simp at h
        | panic => rw [hv] at h; simp at h
        | outOfFuel => rw [hv] at h; simp at h
        | ok rest' =>
          rw [hv] at h
          dsimp only [] at h
          cases rest' with
          | nil => simp at h
          | cons c₀ r₀ =>
            dsimp only [] at h
            by_cases hcb : c₀ = .closingCurlyBrace
            · subst hcb
              rw [if_pos rfl] at h
              simp only [PResult.ok.injEq] at h
              subst h
              simp
            · rw [if_neg hcb] at h
              simp at h
      | openCurlyBrace => simp [parse_json_object] at h
      | openSquareBrace => simp [parse_json_object] at h
      | closingSquareBrace => simp [parse_json_object] at h
      | colon => simp [parse_json_object] at h
      | comma => simp [parse_json_object] at h
      | boolean b => simp [parse_json_object] at h
      | null => simp [parse_json_object] at h
      | eof => simp [parse_json_object] at h

theorem parse_ok_head (f : Nat) (l r : List JsonTokens)
    (h : Parser.parse f l = .ok r) : r.head? = some .closingCurlyBrace := by
  cases f with
  | zero => simp [Parser.parse] at h
  | succ f =>
    cases l with
    | nil => simp [Parser.parse] at h
    | cons t rest =>
      cases t with
      | openCurlyBrace =>
        simp only [Parser.parse] at h
        exact parse_json_object_ok_head f rest r h
      | closingCurlyBrace => simp [Parser.parse] at h
      | openSquareBrace => simp [Parser.parse] at h
      | closingSquareBrace => simp [Parser.parse] at h
      | colon => simp [Parser.parse] at h
      | comma => simp [Parser.parse] at h
      | identifier s n => simp [Parser.parse] at h
      | string s n => simp [Parser.parse] at h
      | boolean b => simp [Parser.parse] at h
      | null => simp [Parser.parse] at h
      | eof => simp [Parser.parse] at h

theorem append_singleton_split {α : Type} {a b p : List α} {x : α}
    (h : a ++ b = p ++ [x]) (hb : b ≠ []) :
    ∃ b', b = b' ++ [x] ∧ a ++ b' = p := by
  have hdl := List.dropLast_append_getLast hb
  rw [← hdl, ← List.append_assoc] at h
  obtain ⟨h1, h2⟩ := List.append_inj' h (by simp)
  refine ⟨b.dropLast, ?_, h1⟩
  rw [← h2]
  exact hdl.symm

/-- C9: the parser never checks that the root object is followed by
`EndOfInput`: if a token stream `pre ++ [Eof]` parses successfully, then so
does every stream obtained by inserting arbitrary further tokens between the
accepted prefix and the `Eof` marker — the trailing tokens are ignored. -/
theorem claim_C9 (pre ext r : List JsonTokens)
    (h : parseTokens (pre ++ [.eof]) = .ok r) :
    ∃ r₂, parseTokens (pre ++ ext ++ [.eof]) = .ok r₂ := by
  have h' : Parser.parse (fuelFor (pre ++ [.eof])) (pre ++ [.eof]) = .ok r := h
  have hhead : r.head? = some .closingCurlyBrace := parse_ok_head _ _ _ h'
  obtain ⟨c, hceq, hrun⟩ := (okExt_all (fuelFor (pre ++ [.eof]))).2.2.2.2.2 _ _ h'
  have hrne : r ≠ [] := by
    intro h0
    rw [h0] at hhead
    simp at hhead
  obtain ⟨r₁, hr₁, hcr₁⟩ := append_singleton_split hceq.symm hrne
  have hr₁ne : r₁ ≠ [] := by
    intro h0
    rw [h0] at hr₁
    simp only [List.nil_append] at hr₁
    rw [hr₁] at hhead
    simp at hhead
  have hagree : (r₁ ++ (ext ++ [JsonTokens.eof])).head? = r.head? := by
    cases r₁ with
    | nil => exact absurd rfl hr₁ne
    | cons a t => rw [hr₁]; simp
  have hres := hrun (fuelFor (pre ++ ext ++ [.eof])) (r₁ ++ (ext ++ [.eof]))
    (by simp only [fuelFor, List.length_append]; omega) hagree
  have hl : pre ++ ext ++ [.eof] = c ++ (r₁ ++ (ext ++ [.eof])) := by
    rw [← hcr₁]
    simp [List.append_assoc]
  rw [← hl] at hres
  exact ⟨r₁ ++ (ext ++ [JsonTokens.eof]), by unfold parseTokens; exact hres⟩

/-- Witness for C9: `{ }` followed by a stray `null` before `Eof` still
parses. -/
theorem claim_C9_witness :
    ∃ r₂, parseTokens ([JsonTokens.openCurlyBrace, JsonTokens.closingCurlyBrace]
      ++ [JsonTokens.null] ++ [JsonTokens.eof]) = .ok r₂ :=
  claim_C9 [.openCurlyBrace, .closingCurlyBrace] [.null] [.closingCurlyBrace, .eof]
    (by decide)
